import Mathlib

/-!
Verification of the thutil repository's multi-machine chunked job dispatcher
(src/thutil/dispatcher.py) and its list utilities (src/thutil/stuff.py).

Shallow embedding conventions:
* Python floats appearing in the ratio/share arithmetic are modelled as exact
  rationals; the shares computed by the source are small-magnitude values for
  which IEEE double arithmetic coincides with exact arithmetic.
* The integer ceilings the source computes through float arithmetic
  (math.ceil(x * y)) are computed here on numerator/denominator pairs through
  the helper iceil, and bridge lemmas identify iceil with the mathematical
  ceiling function on rationals.
* Fallible Python code (statements that can raise) is modelled with
  Except/Option; code that cannot raise is a plain function.
* Tasks are opaque: the task-directory list is a List over an arbitrary type.
-/

deriving instance DecidableEq for Except

namespace Thutil

/-! ## Integer ceiling helper -/

/-- Ceiling of the fraction n / d for a natural denominator, computed with
integer Euclidean division (for d = 0 both this and rational division give 0,
matching Lean conventions; the sources never divide by zero on reachable
inputs). -/
def iceil (n : ℤ) (d : ℕ) : ℤ := -((-n) / (d : ℤ))

/-! ## Python list-slice helpers

Python slicing lst[:n] / lst[n:] accepts negative n, counting from the end
and clamping at the list ends. The dispatcher only reaches nonnegative n for
the ratios in the documented domain, but the helpers keep full fidelity. -/

/-- Python slice lst[:n] for an integer n. -/
def pyTake (n : ℤ) (l : List α) : List α :=
  if n < 0 then l.take (l.length - n.natAbs) else l.take n.toNat

/-- Python slice lst[n:] for an integer n. -/
def pyDrop (n : ℤ) (l : List α) : List α :=
  if n < 0 then l.drop (l.length - n.natAbs) else l.drop n.toNat

/-! ## chunk_list (src/thutil/stuff.py)

Python source:
  def chunk_list(input_list, n):
      for i in range(0, len(input_list), n):
          yield input_list[i : i + n]

range(0, L, n) enumerates ceil(L/n) = (L + n - 1) / n start offsets
0, n, 2n, ...; the generator yields input_list[i : i + n] at each offset.
For n = 0 Python raises ValueError when the generator is first iterated; the
model returns [] there and every caller guards n = 0 explicitly (see
async_submit_job_chunk below), so the n = 0 value is never relied upon. -/

/-- Model of chunk_list: the i-th chunk is input_list[n*i : n*i + n]. -/
def chunk_list (input_list : List α) (n : ℕ) : List (List α) :=
  (List.range' 0 ((input_list.length + n - 1) / n) n).map
    (fun i => (input_list.drop i).take n)

/-! ## The machine dictionary (the fields the dispatcher reads) -/

/-- Fields of one remote-machine configuration dictionary that the
allocation and chunking logic reads: mdict.get("work_load_ratio", None)
and mdict.get("job_limit", 5). -/
structure MDict where
  work_load_ratio : Option ℚ := none
  job_limit : ℕ := 5
deriving DecidableEq, Repr

/-! ## Allocation loop of async_submit_job_multi_remotes
(src/thutil/dispatcher.py lines 296-314)

Python source, with task_dirs the full input list:
  remain_task_dirs = deepcopy(task_dirs)
  for i, cur_mdict in enumerate(remote_machine_list):
      current_work_load = cur_mdict.get("work_load_ratio", None)
      if not current_work_load:
          current_work_load = 1.0 / num_machines
          num_jobs = ceil(len(remain_task_dirs) * current_work_load)
      else:
          num_jobs = ceil(len(task_dirs) * current_work_load)
      if num_jobs <= len(remain_task_dirs):
          current_task_dirs = remain_task_dirs[:num_jobs]
          remain_task_dirs = remain_task_dirs[num_jobs:]
          num_machines -= 1
      else:
          current_task_dirs = remain_task_dirs
          remain_task_dirs = []

Note "if not current_work_load" is Python truthiness: both an absent ratio
and an explicit 0.0 take the implicit branch. -/

/-- Share computed for one machine: ceil(remain_len * (1.0/num_machines))
when the ratio is absent or 0 (ceil(L * (1/m)) = ceil(L/m) exactly), and
ceil(total * r) = ceil(total * r.num / r.den) for an explicit ratio r. -/
def allocShare (total : ℕ) (ratio : Option ℚ) (remainLen num_machines : ℕ) : ℤ :=
  match ratio with
  | none => iceil (remainLen : ℤ) num_machines
  | some r =>
    if r = 0 then iceil (remainLen : ℤ) num_machines
    else iceil ((total : ℤ) * r.num) r.den

/-- One iteration of the allocation loop: returns the slice assigned to this
machine, the new remainder, and the new num_machines counter. -/
def allocStep (total : ℕ) (m : MDict) (remain : List α) (num_machines : ℕ) :
    List α × List α × ℕ :=
  let num_jobs := allocShare total m.work_load_ratio remain.length num_machines
  if num_jobs ≤ (remain.length : ℤ) then
    (pyTake num_jobs remain, pyDrop num_jobs remain, num_machines - 1)
  else
    (remain, [], num_machines)

/-- The whole allocation loop: per-machine assignments plus final remainder.
The num_machines counter starts at the machine count and is decremented
exactly when a machine receives its full computed share. -/
def allocLoop (total : ℕ) :
    List MDict → List α → ℕ → List (List α) × List α
  | [], remain, _ => ([], remain)
  | m :: ms, remain, nm =>
    let s := allocStep total m remain nm
    let rest := allocLoop total ms s.2.1 s.2.2
    (s.1 :: rest.1, rest.2)

/-- Assignments produced by async_submit_job_multi_remotes for the machine
list, in machine index order (the current_task_dirs value of each loop
iteration). -/
def allocateTasks (task_dirs : List α) (machines : List MDict) : List (List α) :=
  (allocLoop task_dirs.length machines task_dirs machines.length).1

/-- Final value of remain_task_dirs after the allocation loop; tasks left
here are silently dropped by the source (nothing is ever submitted for
them). -/
def allocLeftover (task_dirs : List α) (machines : List MDict) : List α :=
  (allocLoop task_dirs.length machines task_dirs machines.length).2

/-! ## Submission phase (src/thutil/dispatcher.py lines 113-187, 292-341)

The dpdispatcher Submission object is external; its run_submission call is
modelled as an opaque engine deciding, per chunk, whether the call returns
normally or raises. Logging is observability-only and is not modelled,
except for the error message printed by _run_submission_wrapper and the
_COLOR_MAP lookup, which can itself raise KeyError for machine_index > 5
before any chunk is submitted. -/

/-- Result of one run_submission call by the external engine. -/
inductive EngineOutcome where
  | ok
  | raises (msg : String)
deriving DecidableEq, Repr

/-- Observable outcome of one machine's dispatch loop: chunks handed to the
engine in order, plus the error messages printed for failed chunks. -/
structure DispatchLog (α : Type u) where
  submitted : List (List α)
  errors : List String
deriving DecidableEq, Repr

/-- Model of _run_submission_wrapper: the engine call runs inside
try/except, so an engine exception is caught and turned into a printed
message and the wrapper returns normally (hence always Except.ok). The
async-with lock bracketing is modelled in the event semantics below. -/
def _run_submission_wrapper (engine : List α → EngineOutcome) (chunk : List α) :
    Except String (Option String) :=
  match engine chunk with
  | .ok => .ok none
  | .raises e => .ok (some ("Error in dispatcher submission: " ++ e))

/-- The for loop of async_submit_job_chunk over the chunks: sequential, and
it aborts (propagates) only if an iteration itself raises; the wrapper
never does. -/
def submitChunksLoop (engine : List α → EngineOutcome) :
    List (List α) → Except String (DispatchLog α)
  | [] => .ok ⟨[], []⟩
  | c :: cs =>
    match _run_submission_wrapper engine c with
    | .error e => .error e
    | .ok errOpt =>
      match submitChunksLoop engine cs with
      | .error e => .error e
      | .ok rest => .ok ⟨c :: rest.submitted, errOpt.toList ++ rest.errors⟩

/-- The color table used for log text; Python raises KeyError when
machine_index is not one of the keys 0..5. -/
def _COLOR_MAP : List String := ["blue", "green", "cyan", "yellow", "red", "purple"]

/-- Model of async_submit_job_chunk for one machine: the _COLOR_MAP lookup
happens first (KeyError for machine_index > 5); a job_limit of 0 makes the
chunk generator raise ValueError when first iterated (range step 0), before
any submission; otherwise the loop submits every chunk through the
wrapper. -/
def async_submit_job_chunk (task_list : List α) (job_limit : ℕ)
    (machine_index : ℕ) (engine : List α → EngineOutcome) :
    Except String (DispatchLog α) :=
  match _COLOR_MAP[machine_index]? with
  | none => .error "KeyError: _COLOR_MAP"
  | some _ =>
    if job_limit = 0 then .error "ValueError: range() arg 3 must not be zero"
    else submitChunksLoop engine (chunk_list task_list job_limit)

/-- Error messages printed by the wrapper for the chunks on which the
engine raises, in submission order. -/
def chunkErrors (engine : List α → EngineOutcome) (cs : List (List α)) :
    List String :=
  cs.filterMap (fun c =>
    match engine c with
    | .ok => none
    | .raises e => some ("Error in dispatcher submission: " ++ e))

/-- The dispatch jobs created by async_submit_job_multi_remotes: one per
machine whose assignment is non-empty, tagged with the machine's position
in the original machine list (the machine_index passed to the dispatch
loop). -/
def fleetJobs (task_dirs : List α) (machines : List MDict) :
    List (ℕ × (MDict × List α)) :=
  ((machines.zip (allocateTasks task_dirs machines)).enum.filter
    (fun p => !p.2.2.isEmpty))

/-- Model of async_submit_job_multi_remotes: allocate, then submit one
dispatch loop per machine with a non-empty assignment (machine_index is the
machine's position in the original list), and gather. No input validation
of any kind happens before or during allocation. -/
def async_submit_job_multi_remotes (task_dirs : List α) (machines : List MDict)
    (engine : ℕ → List α → EngineOutcome) :
    Except String (List (DispatchLog α)) :=
  (fleetJobs task_dirs machines).mapM
    (fun p => async_submit_job_chunk p.2.2 p.2.1.job_limit p.1 (engine p.1))

/-! ## Progress reporting (_info_current_dispatch, lines 194-215)

Python source computes
  total_chunks = ceil(num_tasks / job_limit)
  remaining_tasks = num_tasks - chunk_index * job_limit
  time_remaining = (new_time - old_time) * (total_chunks - chunk_index)
and embeds them in a colored string; the model keeps the numbers (times as
exact rationals), with time_left present exactly when both timestamps are
not None. -/

/-- Numbers carried by the progress message of _info_current_dispatch. -/
structure DispatchInfo where
  num_tasks_current_chunk : ℕ
  total_chunks : ℤ
  remaining_tasks : ℤ
  time_left : Option ℚ
deriving DecidableEq, Repr

/-- Model of _info_current_dispatch. -/
def _info_current_dispatch (num_tasks num_tasks_current_chunk job_limit : ℕ)
    (chunk_index : ℕ) (old_time new_time : Option ℚ) : DispatchInfo :=
  let total_chunks : ℤ := iceil num_tasks job_limit
  { num_tasks_current_chunk := num_tasks_current_chunk
    total_chunks := total_chunks
    remaining_tasks := (num_tasks : ℤ) - chunk_index * job_limit
    time_left :=
      match old_time, new_time with
      | some o, some n => some ((n - o) * ((total_chunks : ℚ) - (chunk_index : ℚ)))
      | _, _ => none }

/-! ## Event semantics of the per-machine submission loop
(_run_submission_wrapper, lines 166-187)

Each machine's coroutine performs, per chunk j, the ordered atomic events
acquire-lock, submission-call-begins, submission-call-returns (ok encodes
whether run_submission returned or raised into the except clause), and
release-lock; async-with releases the lock on every exit path, and the
try/except means the wrapper returns normally either way. A run of the
whole fleet is any interleaving of the machines' event sequences: the event
loop may interleave machines arbitrarily but preserves each coroutine's own
program order. -/

/-- Kinds of atomic events in a machine's dispatch loop. -/
inductive EvKind where
  | acquire
  | beginSub (chunk : ℕ)
  | endSub (chunk : ℕ) (ok : Bool)
  | release
deriving DecidableEq, Repr

/-- An event tagged with the machine index it belongs to. -/
structure Event where
  machine : ℕ
  kind : EvKind
deriving DecidableEq, Repr

/-- Events of one chunk's submission for machine i: the async-with acquires
the per-machine lock, the engine call runs (ok records whether it returned
normally or raised into the except clause), and the lock is released on
either path. -/
def chunkEvents (i j : ℕ) (ok : Bool) : List Event :=
  [⟨i, .acquire⟩, ⟨i, .beginSub j⟩, ⟨i, .endSub j ok⟩, ⟨i, .release⟩]

/-- The whole event sequence of machine i's dispatch loop over k chunks,
given which chunk submissions succeed. -/
def machineProgram (i k : ℕ) (outcome : ℕ → Bool) : List Event :=
  ((List.range k).map (fun j => chunkEvents i j (outcome j))).flatten

/-- The per-machine programs of a fleet, machine i running chunkCounts[i]
chunks. -/
def fleetPrograms (chunkCounts : List ℕ) (outcome : ℕ → ℕ → Bool) :
    List (List Event) :=
  chunkCounts.enum.map (fun p => machineProgram p.1 p.2 (outcome p.1))

/-- A trace t is an interleaving of the given per-machine programs: every
event belongs to one of the machines, and the subsequence of machine i's
events is exactly machine i's program (coroutine program order is
preserved; across machines the order is arbitrary). -/
def IsInterleaving (progs : List (List Event)) (t : List Event) : Prop :=
  (∀ e ∈ t, e.machine < progs.length) ∧
  ∀ i, (h : i < progs.length) →
    t.filter (fun e => e.machine == i) = progs.get ⟨i, h⟩

instance (progs : List (List Event)) (t : List Event) :
    Decidable (IsInterleaving progs t) :=
  inferInstanceAs (Decidable ((∀ e ∈ t, e.machine < progs.length) ∧
    ∀ i, (h : i < progs.length) →
      t.filter (fun e => e.machine == i) = progs.get ⟨i, h⟩))

/-! ## unpack_indices (src/thutil/stuff.py lines 15-28)

Python source:
  idx = []
  for item in list_inputs:
      if isinstance(item, int):
          idx.append(item)
      elif isinstance(item, str):
          parts = item.split(":")
          step = int(parts[1]) if len(parts) > 1 else 1
          start, end = map(int, parts[0].split("-"))
          idx.extend(range(start, end + 1, step))
  return idx

Python strings are modelled as their character lists; int(s) is modelled
for canonical decimal literals (optional leading minus then digits; the
extra syntax Python accepts, such as surrounding whitespace or underscores,
is outside the documented input shapes). A parse failure or a zero step
raises ValueError in Python, modelled by Option none for the whole call. -/

/-- A Python value that may appear in the input list: an int, a str (as its
characters), or a value of any other type (ignored by the loop). -/
inductive PyVal where
  | int (n : ℤ)
  | str (s : List Char)
  | other
deriving DecidableEq, Repr

/-- Value of a nonempty digit string, none on a non-digit. -/
def decDigits (cs : List Char) : Option ℕ :=
  cs.foldl
    (fun acc c =>
      match acc with
      | none => none
      | some a => if c.isDigit then some (10 * a + (c.toNat - 48)) else none)
    (some 0)

/-- Model of Python int(s) on canonical decimal literals. -/
def int_of_chars (cs : List Char) : Option ℤ :=
  match cs with
  | [] => none
  | '-' :: rest => if rest = [] then none else (decDigits rest).map (fun n => -(n : ℤ))
  | _ => (decDigits cs).map (fun n => (n : ℤ))

/-- Python str.split(sep) for a single-character separator. -/
def splitOnChar (sep : Char) : List Char → List (List Char)
  | [] => [[]]
  | c :: cs =>
    if c = sep then [] :: splitOnChar sep cs
    else
      match splitOnChar sep cs with
      | [] => [[c]]
      | p :: ps => (c :: p) :: ps

/-- Number of elements of Python range(start, stop, step) for step not 0:
ceil((stop - start) / step) clamped at 0. -/
def pyRangeLen (start stop step : ℤ) : ℕ :=
  if 0 < step then ((stop - start).toNat + (step.toNat - 1)) / step.toNat
  else ((start - stop).toNat + ((-step).toNat - 1)) / (-step).toNat

/-- Python range(start, stop, step) as a list; none models the ValueError
raised on step = 0. -/
def pyRange (start stop step : ℤ) : Option (List ℤ) :=
  if step = 0 then none
  else some ((List.range (pyRangeLen start stop step)).map
    (fun i : ℕ => start + step * (i : ℤ)))

/-- Model of unpack_indices; none models the ValueError Python raises on a
malformed string element (bad int literal, a split not yielding exactly two
parts, or step 0). -/
def unpack_indices : List PyVal → Option (List ℤ)
  | [] => some []
  | .int n :: rest => (unpack_indices rest).map (fun l => n :: l)
  | .str s :: rest =>
    let parts := splitOnChar ':' s
    let stepOpt : Option ℤ :=
      match parts with
      | _ :: p1 :: _ => int_of_chars p1
      | _ => some 1
    match stepOpt with
    | none => none
    | some step =>
      match splitOnChar '-' (parts.headD []) with
      | [a, b] =>
        match int_of_chars a, int_of_chars b with
        | some start, some stop =>
          match pyRange start (stop + 1) step with
          | none => none
          | some r => (unpack_indices rest).map (fun l => r ++ l)
        | _, _ => none
      | _ => none
  | .other :: rest => unpack_indices rest

end Thutil

namespace Thutil

theorem iceil_eq_ceil (n : ℤ) (d : ℕ) : iceil n d = ⌈(n : ℚ) / (d : ℚ)⌉ := by
  have h : (⌈(n : ℚ) / (d : ℚ)⌉ : ℤ) = -⌊-((n : ℚ) / (d : ℚ))⌋ := by
    rw [Int.floor_neg, neg_neg]
  rw [h, iceil, ← neg_div, ← Int.cast_neg, Rat.floor_intCast_div_natCast]

theorem allocStep_partition (total : ℕ) (m : MDict) (remain : List α)
    (nm : ℕ) :
    (allocStep total m remain nm).1 ++ (allocStep total m remain nm).2.1 = remain := by
  unfold allocStep
  by_cases h : allocShare total m.work_load_ratio remain.length nm ≤ (remain.length : ℤ)
  · simp only [h, if_pos, pyTake, pyDrop]
    by_cases hn : allocShare total m.work_load_ratio remain.length nm < 0
    · simp [hn, List.take_append_drop]
    · simp [hn, List.take_append_drop]
  · simp [h]

theorem allocLoop_partition (total : ℕ) (ms : List MDict) (remain : List α)
    (nm : ℕ) :
    ((allocLoop total ms remain nm).1).flatten ++ (allocLoop total ms remain nm).2
      = remain := by
  induction ms generalizing remain nm with
  | nil => simp [allocLoop]
  | cons m ms ih =>
    simp only [allocLoop, List.flatten_cons, List.append_assoc]
    rw [ih, allocStep_partition]

/-! ## Chunker lemmas -/

theorem ceil_natCast_div (L n : ℕ) (hn : 1 ≤ n) :
    ⌈(L : ℚ) / (n : ℚ)⌉ = (((L + n - 1) / n : ℕ) : ℤ) := by
  set k : ℕ := (L + n - 1) / n with hk
  have hmod := Nat.div_add_mod (L + n - 1) n
  have hr : (L + n - 1) % n < n := Nat.mod_lt _ (by omega)
  set r : ℕ := (L + n - 1) % n with hr'
  have hnq : (0 : ℚ) < (n : ℚ) := by exact_mod_cast (by omega : 0 < n)
  have h2 : (n : ℤ) * (k : ℤ) + (r : ℤ) = (L : ℤ) + (n : ℤ) - 1 := by
    have h1 : n * k + r = L + n - 1 := hmod
    have h1' : (((n * k + r : ℕ)) : ℤ) = ((L + n - 1 : ℕ) : ℤ) := by
      rw [h1]
    push_cast at h1'
    rw [h1']
    have : 1 ≤ L + n := by omega
    push_cast [Nat.cast_sub (by omega : 1 ≤ L + n)]
    ring
  have hrz : (r : ℤ) < (n : ℤ) := by exact_mod_cast hr
  rw [Int.ceil_eq_iff]
  constructor
  · rw [lt_div_iff₀ hnq]
    have hzz : ((k : ℤ) - 1) * n < L := by nlinarith [h2, hrz]
    calc ((k : ℚ) - 1) * n = ((((k : ℤ) - 1) * n : ℤ) : ℚ) := by push_cast; ring
    _ < ((L : ℤ) : ℚ) := by exact_mod_cast hzz
    _ = (L : ℚ) := by push_cast; ring
  · rw [div_le_iff₀ hnq]
    have hzz : (L : ℤ) ≤ k * n := by nlinarith [h2, hrz]
    calc ((L : ℚ)) = ((L : ℤ) : ℚ) := by push_cast; ring
    _ ≤ (((k * n : ℤ)) : ℚ) := by exact_mod_cast hzz
    _ = (k : ℚ) * n := by push_cast; ring

theorem chunk_list_length (l : List α) (n : ℕ) :
    (chunk_list l n).length = (l.length + n - 1) / n := by
  simp [chunk_list]

theorem chunk_list_step (n : ℕ) (hn : 1 ≤ n) (l : List α) (hl : l ≠ []) :
    chunk_list l n = l.take n :: chunk_list (l.drop n) n := by
  have hL : 1 ≤ l.length := List.length_pos.mpr hl
  have hcount : (l.length + n - 1) / n = ((l.length - n) + n - 1) / n + 1 := by
    rcases le_or_lt l.length n with h | h
    · have h1 : (l.length + n - 1) / n = 1 := by
        apply Nat.div_eq_of_lt_le <;> omega
      have h2 : ((l.length - n) + n - 1) / n = 0 := Nat.div_eq_of_lt (by omega)
      omega
    · have heq : l.length + n - 1 = ((l.length - n) + n - 1) + n := by omega
      rw [heq, Nat.add_div_right _ (by omega)]
  rw [chunk_list, chunk_list, hcount, List.length_drop, List.range'_succ]
  have hshift : List.range' (0 + n) ((l.length - n + n - 1) / n) n
      = (List.range' 0 ((l.length - n + n - 1) / n) n).map (n + ·) := by
    rw [List.map_add_range']
    norm_num
  simp only [List.map_cons, List.drop_zero, hshift, List.map_map]
  congr 1
  apply List.map_congr_left
  intro i _
  simp [Function.comp, List.drop_drop]

theorem chunk_list_flatten (n : ℕ) (hn : 1 ≤ n) :
    ∀ l : List α, (chunk_list l n).flatten = l
  | [] => by simp [chunk_list]
  | a :: l => by
    rw [chunk_list_step n hn (a :: l) (by simp), List.flatten_cons,
      chunk_list_flatten n hn ((a :: l).drop n), List.take_append_drop]
  termination_by l => l.length
  decreasing_by simp only [List.length_drop]; simp; omega

theorem chunk_list_eq_nil_iff (n : ℕ) (hn : 1 ≤ n) (l : List α) :
    chunk_list l n = [] ↔ l = [] := by
  constructor
  · intro h
    by_contra hne
    have h1 := chunk_list_length l n
    rw [h] at h1
    have hL : 1 ≤ l.length := List.length_pos.mpr hne
    have hle : n ≤ l.length + n - 1 := by omega
    have h2 := Nat.div_le_div_right (c := n) hle
    rw [Nat.div_self (by omega)] at h2
    simp at h1
    omega
  · intro h
    subst h
    have hz : (n - 1) / n = 0 := Nat.div_eq_of_lt (by omega)
    simp [chunk_list, hz]

theorem chunk_list_mem_length (n : ℕ) (hn : 1 ≤ n) :
    ∀ l : List α, ∀ c ∈ chunk_list l n, 1 ≤ c.length ∧ c.length ≤ n
  | [] => by
    have hz : (n - 1) / n = 0 := Nat.div_eq_of_lt (by omega)
    simp [chunk_list, hz]
  | a :: l => by
    rw [chunk_list_step n hn (a :: l) (by simp)]
    intro c hc
    rcases List.mem_cons.mp hc with h | h
    · subst h
      constructor
      · simp only [List.length_take]
        have : 0 < (a :: l).length := by simp
        omega
      · simp only [List.length_take]
        omega
    · exact chunk_list_mem_length n hn ((a :: l).drop n) c h
  termination_by l => l.length
  decreasing_by simp only [List.length_drop]; simp; omega

theorem chunk_list_dropLast_length (n : ℕ) (hn : 1 ≤ n) :
    ∀ l : List α, ∀ c ∈ (chunk_list l n).dropLast, c.length = n
  | [] => by
    have hz : (n - 1) / n = 0 := Nat.div_eq_of_lt (by omega)
    simp [chunk_list, hz]
  | a :: l => by
    rw [chunk_list_step n hn (a :: l) (by simp)]
    intro c hc
    rcases hrest : chunk_list ((a :: l).drop n) n with _ | ⟨r, rs⟩
    · rw [hrest] at hc
      simp at hc
    · rw [hrest, List.dropLast_cons_of_ne_nil (by simp)] at hc
      rcases List.mem_cons.mp hc with h | h
      · subst h
        have hd : (a :: l).drop n ≠ [] := by
          intro hnil
          rw [(chunk_list_eq_nil_iff n hn _).mpr hnil] at hrest
          exact List.cons_ne_nil _ _ hrest.symm
        have : n < (a :: l).length := by
          have := List.length_pos.mpr hd
          simp only [List.length_drop] at this
          omega
        simp only [List.length_take]
        omega
      · rw [← hrest] at h
        exact chunk_list_dropLast_length n hn ((a :: l).drop n) c h
  termination_by l => l.length
  decreasing_by simp only [List.length_drop]; simp; omega

/-- C5: the chunker yields exactly ceil(L/n) chunks for chunk size n >= 1,
all of length n except possibly the last, each chunk has 1..n items, the
concatenation reproduces the input, and an empty input yields no chunks. -/
theorem claim_C5_chunker (n : ℕ) (l : List α) (hn : 1 ≤ n) :
    ((chunk_list l n).length : ℤ) = ⌈(l.length : ℚ) / (n : ℚ)⌉
    ∧ (chunk_list l n).flatten = l
    ∧ (∀ c ∈ (chunk_list l n).dropLast, c.length = n)
    ∧ (∀ c ∈ chunk_list l n, 1 ≤ c.length ∧ c.length ≤ n)
    ∧ (l = [] → chunk_list l n = []) := by
  refine ⟨?_, chunk_list_flatten n hn l, chunk_list_dropLast_length n hn l,
    chunk_list_mem_length n hn l, fun h => (chunk_list_eq_nil_iff n hn l).mpr h⟩
  rw [chunk_list_length, ceil_natCast_div l.length n hn]

/-- Witness for claim_C5_chunker at the concrete input [0..6] with chunk
size 3. -/
theorem claim_C5_chunker_witness :
    1 ≤ 3
    ∧ (((chunk_list [0, 1, 2, 3, 4, 5, 6] 3).length : ℤ)
        = ⌈(([0, 1, 2, 3, 4, 5, 6] : List ℕ).length : ℚ) / ((3 : ℕ) : ℚ)⌉
      ∧ (chunk_list [0, 1, 2, 3, 4, 5, 6] 3).flatten = [0, 1, 2, 3, 4, 5, 6]
      ∧ (∀ c ∈ (chunk_list [0, 1, 2, 3, 4, 5, 6] 3).dropLast, c.length = 3)
      ∧ (∀ c ∈ chunk_list [0, 1, 2, 3, 4, 5, 6] 3, 1 ≤ c.length ∧ c.length ≤ 3)
      ∧ ([0, 1, 2, 3, 4, 5, 6] = ([] : List ℕ)
          → chunk_list [0, 1, 2, 3, 4, 5, 6] 3 = [])) :=
  ⟨by decide, claim_C5_chunker 3 [0, 1, 2, 3, 4, 5, 6] (by decide)⟩

/-! ## Allocator lemmas -/

theorem pyTake_nil (n : ℤ) : pyTake n ([] : List α) = [] := by
  unfold pyTake
  split <;> simp

theorem pyDrop_nil (n : ℤ) : pyDrop n ([] : List α) = [] := by
  unfold pyDrop
  split <;> simp

theorem pyTake_of_nonneg (n : ℤ) (hn : 0 ≤ n) (l : List α) :
    pyTake n l = l.take n.toNat := by
  unfold pyTake
  rw [if_neg (by omega)]

theorem pyDrop_of_nonneg (n : ℤ) (hn : 0 ≤ n) (l : List α) :
    pyDrop n l = l.drop n.toNat := by
  unfold pyDrop
  rw [if_neg (by omega)]

theorem allocLoop_cons (total : ℕ) (m : MDict) (ms : List MDict)
    (remain : List α) (nm : ℕ) :
    allocLoop total (m :: ms) remain nm
      = ((allocStep total m remain nm).1
            :: (allocLoop total ms (allocStep total m remain nm).2.1
                  (allocStep total m remain nm).2.2).1,
          (allocLoop total ms (allocStep total m remain nm).2.1
            (allocStep total m remain nm).2.2).2) := rfl

theorem allocShare_none (total remainLen nm : ℕ) :
    allocShare total none remainLen nm
      = ⌈(remainLen : ℚ) * ((1 : ℚ) / (nm : ℚ))⌉ := by
  show iceil (remainLen : ℤ) nm = _
  rw [iceil_eq_ceil, mul_one_div]
  norm_num

theorem allocShare_some (total remainLen nm : ℕ) (r : ℚ) (hr : r ≠ 0) :
    allocShare total (some r) remainLen nm = ⌈(total : ℚ) * r⌉ := by
  show (if r = 0 then _ else iceil ((total : ℤ) * r.num) r.den) = _
  rw [if_neg hr, iceil_eq_ceil]
  congr 1
  push_cast
  rw [mul_div_assoc, Rat.num_div_den]

theorem allocShare_none_nonneg (total remainLen nm : ℕ) :
    0 ≤ allocShare total none remainLen nm := by
  rw [allocShare_none]
  exact Int.ceil_nonneg (by positivity)

theorem allocShare_none_le (total remainLen nm : ℕ) (hnm : 1 ≤ nm) :
    allocShare total none remainLen nm ≤ (remainLen : ℤ) := by
  rw [allocShare_none, mul_one_div, Int.ceil_le]
  push_cast
  exact div_le_self (by positivity) (by exact_mod_cast hnm)

theorem allocStep_nil_remain (total : ℕ) (m : MDict) (nm : ℕ) :
    (allocStep total m ([] : List α) nm).2.1 = [] := by
  simp only [allocStep]
  split <;> simp [pyDrop_nil]

theorem allocLoop_nil_remain (total : ℕ) (ms : List MDict) (nm : ℕ) :
    (allocLoop total ms ([] : List α) nm).2 = [] := by
  induction ms generalizing nm with
  | nil => rfl
  | cons m ms ih =>
    rw [allocLoop_cons, allocStep_nil_remain]
    exact ih _

theorem allocLoop_leftover_nil (total : ℕ) (ms : List MDict) :
    ∀ (remain : List α) (nm : ℕ), nm = ms.length →
      ∀ (hne : ms ≠ []), (ms.getLast hne).work_load_ratio = none →
        (allocLoop total ms remain nm).2 = [] := by
  induction ms with
  | nil => intro _ _ _ hne; exact absurd rfl hne
  | cons m ms ih =>
    intro remain nm hnm hne hlast
    rcases hms : ms with _ | ⟨m2, ms2⟩
    · subst hms
      have hm : m.work_load_ratio = none := by
        simpa [List.getLast] using hlast
      have hnm1 : nm = 1 := by simpa using hnm
      subst hnm1
      have hshare : allocShare total m.work_load_ratio remain.length 1
          = (remain.length : ℤ) := by
        rw [hm]
        show iceil (remain.length : ℤ) 1 = _
        unfold iceil
        rw [Nat.cast_one, Int.ediv_one, neg_neg]
      have hstep : (allocStep total m remain 1).2.1 = [] := by
        simp only [allocStep]
        rw [hshare, if_pos le_rfl]
        show pyDrop (remain.length : ℤ) remain = []
        rw [pyDrop_of_nonneg _ (by positivity), Int.toNat_natCast, List.drop_length]
      rw [allocLoop_cons, hstep]
      rfl
    · subst hms
      have hlast' : ((m2 :: ms2).getLast (by simp)).work_load_ratio = none := by
        rwa [List.getLast_cons (by simp)] at hlast
      rw [allocLoop_cons]
      by_cases hle : allocShare total m.work_load_ratio remain.length nm
          ≤ (remain.length : ℤ)
      · have hstep2 : (allocStep total m remain nm).2.2 = nm - 1 := by
          simp only [allocStep]
          rw [if_pos hle]
        rw [hstep2]
        exact ih _ _ (by simp only [List.length_cons] at hnm ⊢; omega) (by simp) hlast'
      · have hstep1 : (allocStep total m remain nm).2.1 = [] := by
          simp only [allocStep]
          rw [if_neg hle]
        rw [hstep1]
        exact allocLoop_nil_remain total _ _

/-- C1 (amended): the concatenation of the per-machine assignments, in
machine index order, reproduces the original task sequence exactly,
provided the last machine has no explicit work-load ratio. (Without that
proviso the unamended claim is false: see claim_C1_counterexample, where a
trailing explicit ratio below 1 silently drops the tail of the task
list.) -/
theorem claim_C1_partition_amended (task_dirs : List α) (ms : List MDict)
    (hne : ms ≠ []) (hlast : (ms.getLast hne).work_load_ratio = none) :
    (allocateTasks task_dirs ms).flatten = task_dirs := by
  have hpart := allocLoop_partition task_dirs.length ms task_dirs ms.length
  have hnil := allocLoop_leftover_nil task_dirs.length ms task_dirs ms.length
    rfl hne hlast
  rw [allocateTasks]
  rw [hnil] at hpart
  simpa using hpart

/-- Witness for claim_C1_partition_amended: a single machine with no
explicit ratio receives every task. -/
theorem claim_C1_partition_amended_witness :
    ([(⟨none, 5⟩ : MDict)] ≠ [])
    ∧ (allocateTasks [0, 1, 2] [(⟨none, 5⟩ : MDict)]).flatten = [0, 1, 2] :=
  ⟨by decide, claim_C1_partition_amended [0, 1, 2] [⟨none, 5⟩] (by decide) (by decide)⟩

/-- Counterexample to C1 as stated: with tasks [0, 1] and a single machine
whose explicit work-load ratio is 1/2 (a machine list that is non-empty and
within the documented ratio domain (0, 1]), the allocation assigns only
[0]; task 1 is dropped, so the concatenation does not reproduce the
original sequence. -/
theorem claim_C1_counterexample :
    (allocateTasks [0, 1] [(⟨some (mkRat 1 2), 5⟩ : MDict)]).flatten = [0]
    ∧ (allocateTasks [0, 1] [(⟨some (mkRat 1 2), 5⟩ : MDict)]).flatten ≠ [0, 1] := by
  decide

theorem allocLoop_head (total : ℕ) (m : MDict) (ms : List MDict)
    (remain : List α) (nm : ℕ) :
    (allocLoop total (m :: ms) remain nm).1.head?
      = some (allocStep total m remain nm).1 := rfl

theorem allocStep_fst_none (total : ℕ) (m : MDict) (remain : List α) (nm : ℕ)
    (hm : m.work_load_ratio = none) (hnm : 1 ≤ nm) :
    (allocStep total m remain nm).1
      = remain.take (allocShare total none remain.length nm).toNat := by
  simp only [allocStep, hm]
  rw [if_pos (allocShare_none_le total remain.length nm hnm)]
  exact pyTake_of_nonneg _ (allocShare_none_nonneg total remain.length nm) remain

theorem allocStep_fst_some (total : ℕ) (m : MDict) (remain : List α) (nm : ℕ)
    (r : ℚ) (hm : m.work_load_ratio = some r) (hr : 0 < r) :
    (allocStep total m remain nm).1 = remain.take (⌈(total : ℚ) * r⌉.toNat) := by
  have hsh := allocShare_some total remain.length nm r (ne_of_gt hr)
  have hnn : 0 ≤ ⌈(total : ℚ) * r⌉ :=
    Int.ceil_nonneg (mul_nonneg (Nat.cast_nonneg total) (le_of_lt hr))
  simp only [allocStep, hm, hsh]
  by_cases hle : ⌈(total : ℚ) * r⌉ ≤ (remain.length : ℤ)
  · rw [if_pos hle]
    exact pyTake_of_nonneg _ hnn remain
  · rw [if_neg hle]
    show remain = remain.take ⌈(total : ℚ) * r⌉.toNat
    exact (List.take_of_length_le (by omega)).symm

/-- C2 (amended): at each allocation step, a machine with no explicit
work-load ratio is assigned the first ceil(remaining_count * (1/k)) tasks
of the remainder, where k is the loop's num_machines counter: the total
machine count minus the number of earlier machines that received their full
computed share (machines with explicit ratios are counted too, contrary to
the unamended claim; see claim_C2_counterexample). The share equals the
ceiling division (remaining + k - 1) / k, and the counter is then
decremented. -/
theorem claim_C2_implicit_share_amended (total : ℕ) (m : MDict)
    (ms : List MDict) (remain : List α) (nm : ℕ)
    (hm : m.work_load_ratio = none) (hnm : 1 ≤ nm) :
    (allocLoop total (m :: ms) remain nm).1.head?
        = some (remain.take (⌈(remain.length : ℚ) * ((1 : ℚ) / (nm : ℚ))⌉.toNat))
    ∧ ⌈(remain.length : ℚ) * ((1 : ℚ) / (nm : ℚ))⌉.toNat
        = (remain.length + nm - 1) / nm
    ∧ (allocStep total m remain nm).2.2 = nm - 1 := by
  refine ⟨?_, ?_, ?_⟩
  · rw [allocLoop_head, allocStep_fst_none total m remain nm hm hnm,
      allocShare_none]
  · rw [mul_one_div, ceil_natCast_div remain.length nm hnm, Int.toNat_natCast]
  · simp only [allocStep, hm]
    rw [if_pos (allocShare_none_le total remain.length nm hnm)]

/-- Witness for claim_C2_implicit_share_amended: 9 remaining tasks split
over a counter of 3 gives this machine the first ceil(9/3) = 3 tasks. -/
theorem claim_C2_implicit_share_amended_witness :
    ((⟨none, 5⟩ : MDict).work_load_ratio = none ∧ 1 ≤ 3)
    ∧ ((allocLoop 9 [(⟨none, 5⟩ : MDict)] (List.range 9) 3).1.head?
        = some ((List.range 9).take
            (⌈((List.range 9).length : ℚ) * ((1 : ℚ) / ((3 : ℕ) : ℚ))⌉.toNat))
      ∧ ⌈((List.range 9).length : ℚ) * ((1 : ℚ) / ((3 : ℕ) : ℚ))⌉.toNat
          = ((List.range 9).length + 3 - 1) / 3
      ∧ (allocStep 9 (⟨none, 5⟩ : MDict) (List.range 9) 3).2.2 = 3 - 1) :=
  ⟨⟨rfl, by decide⟩,
    claim_C2_implicit_share_amended 9 ⟨none, 5⟩ [] (List.range 9) 3 rfl (by decide)⟩

/-- Counterexample to C2 as stated: tasks [0..8] and machines
[no-ratio, ratio 1/3, ratio 1/3]. At the first step the number of
still-unassigned machines without an explicit ratio is 1, so the claimed
share is ceil(9 * (1/1)) = 9 tasks, but the allocator assigns machine 0
only the 3 tasks [0, 1, 2] (it divides by the count of all remaining
machines, 3). -/
theorem claim_C2_counterexample :
    (allocateTasks (List.range 9)
        [(⟨none, 5⟩ : MDict), ⟨some (mkRat 1 3), 5⟩, ⟨some (mkRat 1 3), 5⟩]).head?
      = some [0, 1, 2]
    ∧ ⌈((9 : ℕ) : ℚ) * ((1 : ℚ) / ((1 : ℕ) : ℚ))⌉ = 9
    ∧ ([0, 1, 2] : List ℕ).length ≠ 9 :=
  ⟨by decide, by norm_num, by decide⟩

/-- C3: at each allocation step, a machine with an explicit work-load ratio
r > 0 is assigned the first ceil(total * r) tasks of the remainder, where
total is the original task count (not the remaining count); the assignment
length is min(ceil(total * r), remaining_count). -/
theorem claim_C3_explicit_share (total : ℕ) (m : MDict) (ms : List MDict)
    (remain : List α) (nm : ℕ) (r : ℚ) (hm : m.work_load_ratio = some r)
    (hr : 0 < r) :
    (allocLoop total (m :: ms) remain nm).1.head?
        = some (remain.take (⌈(total : ℚ) * r⌉.toNat))
    ∧ (remain.take (⌈(total : ℚ) * r⌉.toNat)).length
        = min (⌈(total : ℚ) * r⌉.toNat) remain.length := by
  refine ⟨?_, List.length_take _ _⟩
  rw [allocLoop_head, allocStep_fst_some total m remain nm r hm hr]

/-- Witness for claim_C3_explicit_share: with 10 original tasks, ratio 1/2
and only 4 tasks remaining, the machine gets min(5, 4) = 4 tasks. -/
theorem claim_C3_explicit_share_witness :
    ((⟨some (mkRat 1 2), 5⟩ : MDict).work_load_ratio = some (mkRat 1 2)
      ∧ 0 < mkRat 1 2)
    ∧ ((allocLoop 10 [(⟨some (mkRat 1 2), 5⟩ : MDict)] [90, 91, 92, 93] 1).1.head?
        = some (([90, 91, 92, 93] : List ℕ).take
            (⌈((10 : ℕ) : ℚ) * mkRat 1 2⌉.toNat))
      ∧ (([90, 91, 92, 93] : List ℕ).take (⌈((10 : ℕ) : ℚ) * mkRat 1 2⌉.toNat)).length
          = min (⌈((10 : ℕ) : ℚ) * mkRat 1 2⌉.toNat) ([90, 91, 92, 93] : List ℕ).length) :=
  ⟨⟨rfl, by decide⟩,
    claim_C3_explicit_share 10 ⟨some (mkRat 1 2), 5⟩ [] [90, 91, 92, 93] 1
      (mkRat 1 2) rfl (by decide)⟩

/-- C4: on 12 tasks [0..11] with machine 0 having ratio 0.25 and chunk
limit 3, and machines 1 and 2 having no ratio and chunk limits 5 and 10,
the allocation is [0,1,2] / [3..7] / [8..11], and running the whole
dispatch gives each machine exactly one submitted chunk. -/
theorem claim_C4_end_to_end :
    allocateTasks (List.range 12)
        [(⟨some (mkRat 1 4), 3⟩ : MDict), ⟨none, 5⟩, ⟨none, 10⟩]
      = [[0, 1, 2], [3, 4, 5, 6, 7], [8, 9, 10, 11]]
    ∧ async_submit_job_multi_remotes (List.range 12)
        [(⟨some (mkRat 1 4), 3⟩ : MDict), ⟨none, 5⟩, ⟨none, 10⟩]
        (fun _ _ => .ok)
      = .ok [⟨[[0, 1, 2]], []⟩, ⟨[[3, 4, 5, 6, 7]], []⟩, ⟨[[8, 9, 10, 11]], []⟩] := by
  decide

/-! ## Submission-phase lemmas -/

theorem submitChunksLoop_ok (engine : List α → EngineOutcome) :
    ∀ cs : List (List α),
      submitChunksLoop engine cs = .ok ⟨cs, chunkErrors engine cs⟩ := by
  intro cs
  induction cs with
  | nil => rfl
  | cons c cs ih =>
    cases hec : engine c with
    | ok =>
      simp [submitChunksLoop, _run_submission_wrapper, hec, ih,
        chunkErrors, List.filterMap_cons]
    | raises e =>
      simp [submitChunksLoop, _run_submission_wrapper, hec, ih,
        chunkErrors, List.filterMap_cons]

theorem async_submit_job_chunk_ok (task_list : List α) (jl mi : ℕ)
    (engine : List α → EngineOutcome) (hmi : mi < 6) (hjl : 1 ≤ jl) :
    async_submit_job_chunk task_list jl mi engine
      = .ok ⟨chunk_list task_list jl, chunkErrors engine (chunk_list task_list jl)⟩ := by
  have h6 : mi < _COLOR_MAP.length := by
    simp only [_COLOR_MAP, List.length_cons, List.length_nil]
    omega
  unfold async_submit_job_chunk
  rw [List.getElem?_eq_getElem h6, if_neg (show ¬jl = 0 by omega)]
  exact submitChunksLoop_ok engine _

theorem mapM_except_ok {β : Type v} {γ : Type w} (f : β → Except String γ)
    (g : β → γ) :
    ∀ l : List β, (∀ x ∈ l, f x = .ok (g x)) → l.mapM f = .ok (l.map g) := by
  intro l h
  induction l with
  | nil => rfl
  | cons a l ih =>
    rw [List.mapM_cons, h a (by simp)]
    rw [ih (fun x hx => h x (by simp [hx]))]
    rfl

/-- C7: per-chunk failure isolation. An engine failure on one chunk is
caught and reported by the wrapper, and the machine's loop still submits
every one of its chunks, in order; the failed chunks contribute only error
messages. At the fleet level, every machine's dispatch runs on its own
assignment and its own engine outcomes: its submitted chunks are its full
chunk list regardless of any failures anywhere, and no retry occurs (each
chunk is handed to the engine exactly once). -/
theorem claim_C7_failure_isolation :
    (∀ (α : Type) (task_list : List α) (jl mi : ℕ)
      (engine : List α → EngineOutcome), mi < 6 → 1 ≤ jl →
      async_submit_job_chunk task_list jl mi engine
        = .ok ⟨chunk_list task_list jl, chunkErrors engine (chunk_list task_list jl)⟩)
    ∧ (∀ (α : Type) (task_dirs : List α) (machines : List MDict)
        (engine : ℕ → List α → EngineOutcome),
        machines.length ≤ 6 → (∀ m ∈ machines, 1 ≤ m.job_limit) →
        async_submit_job_multi_remotes task_dirs machines engine
          = .ok ((fleetJobs task_dirs machines).map
              (fun p => ⟨chunk_list p.2.2 p.2.1.job_limit,
                chunkErrors (engine p.1) (chunk_list p.2.2 p.2.1.job_limit)⟩))) := by
  constructor
  · intro α task_list jl mi engine hmi hjl
    exact async_submit_job_chunk_ok task_list jl mi engine hmi hjl
  · intro α task_dirs machines engine hlen hjl
    unfold async_submit_job_multi_remotes
    apply mapM_except_ok
    intro p hp
    rcases p with ⟨i, m, asg⟩
    have hp' := (List.mem_filter.mp hp).1
    have hi : i < ((machines.zip (allocateTasks task_dirs machines))).length :=
      List.fst_lt_of_mem_enum hp'
    have hmem : (m, asg) ∈ machines.zip (allocateTasks task_dirs machines) :=
      List.snd_mem_of_mem_enum hp'
    have hmmem : m ∈ machines := (List.of_mem_zip hmem).1
    apply async_submit_job_chunk_ok
    · have := List.length_zip machines (allocateTasks task_dirs machines)
      omega
    · exact hjl m hmmem

/-- Witness for claim_C7_failure_isolation: a 2-chunk dispatch whose first
chunk fails still submits both chunks and logs one error. -/
theorem claim_C7_failure_isolation_witness :
    ((0 : ℕ) < 6 ∧ (1 : ℕ) ≤ 2)
    ∧ async_submit_job_chunk [0, 1, 2, 3] 2 0
        (fun c => if c = [0, 1] then EngineOutcome.raises "boom" else .ok)
      = .ok ⟨chunk_list [0, 1, 2, 3] 2,
          chunkErrors (fun c => if c = [0, 1] then EngineOutcome.raises "boom" else .ok)
            (chunk_list [0, 1, 2, 3] 2)⟩ :=
  ⟨⟨by decide, by decide⟩,
    claim_C7_failure_isolation.1 ℕ [0, 1, 2, 3] 2 0
      (fun c => if c = [0, 1] then EngineOutcome.raises "boom" else .ok)
      (by decide) (by decide)⟩

/-- C6 (amended): async_submit_job_multi_remotes performs no input
validation whatsoever. With zero targets it completes without error,
submitting nothing (every task is silently dropped); a malformed entry is
not rejected before allocation either - e.g. a non-positive chunk size
(job_limit 0) surfaces only as a ValueError when that machine's chunk loop
is first iterated, after allocation has happened. -/
theorem claim_C6_no_validation_amended :
    (∀ (α : Type) (task_dirs : List α) (engine : ℕ → List α → EngineOutcome),
      async_submit_job_multi_remotes task_dirs ([] : List MDict) engine = .ok [])
    ∧ async_submit_job_multi_remotes [0] [(⟨none, 0⟩ : MDict)] (fun _ _ => .ok)
        = .error "ValueError: range() arg 3 must not be zero" := by
  constructor
  · intro α td eng
    rfl
  · decide

/-- Counterexample to C6 as stated: called with three tasks and zero
targets, the dispatch does not fail - it returns normally having submitted
nothing (and dropping all tasks), so the operation does not fail when given
zero targets, and no validation error is raised. -/
theorem claim_C6_counterexample :
    async_submit_job_multi_remotes [0, 1, 2] ([] : List MDict) (fun _ _ => .ok)
      = .ok [] := by
  decide

/-! ## Event-semantics lemmas for the per-machine lock discipline -/

theorem machineProgram_succ (i k : ℕ) (oc : ℕ → Bool) :
    machineProgram i (k + 1) oc
      = machineProgram i k oc ++ chunkEvents i k (oc k) := by
  unfold machineProgram
  rw [List.range_succ, List.map_append, List.flatten_append]
  simp

theorem chunkEvents_block_sublist (i k : ℕ) (oc : ℕ → Bool) (j : ℕ)
    (hj : j < k) :
    (chunkEvents i j (oc j)).Sublist (machineProgram i k oc) := by
  induction k with
  | zero => omega
  | succ k ih =>
    rw [machineProgram_succ]
    rcases Nat.lt_succ_iff_lt_or_eq.mp hj with h | h
    · exact (ih h).trans (List.sublist_append_left _ _)
    · subst h
      exact List.sublist_append_right _ _

theorem beginEnd_sublist_chunkEvents (i j : ℕ) (ok : Bool) :
    ([⟨i, .beginSub j⟩, ⟨i, .endSub j ok⟩] : List Event).Sublist
      (chunkEvents i j ok) :=
  (((List.nil_sublist _).cons₂ _).cons₂ _).cons _

theorem orderedPair_sublist (i k a b : ℕ) (oc : ℕ → Bool) (hab : a < b)
    (hb : b < k) :
    ([⟨i, .beginSub a⟩, ⟨i, .endSub a (oc a)⟩,
      ⟨i, .beginSub b⟩, ⟨i, .endSub b (oc b)⟩] : List Event).Sublist
      (machineProgram i k oc) := by
  induction k with
  | zero => omega
  | succ k ih =>
    rw [machineProgram_succ]
    rcases Nat.lt_succ_iff_lt_or_eq.mp hb with h | h
    · exact (ih h).trans (List.sublist_append_left _ _)
    · subst h
      have h4 : ([⟨i, .beginSub a⟩, ⟨i, .endSub a (oc a)⟩,
          ⟨i, .beginSub b⟩, ⟨i, .endSub b (oc b)⟩] : List Event)
          = [⟨i, .beginSub a⟩, ⟨i, .endSub a (oc a)⟩]
            ++ [⟨i, .beginSub b⟩, ⟨i, .endSub b (oc b)⟩] := rfl
      rw [h4]
      exact List.Sublist.append
        ((beginEnd_sublist_chunkEvents i a (oc a)).trans
          (chunkEvents_block_sublist i b oc a hab))
        (beginEnd_sublist_chunkEvents i b (oc b))

theorem fleetPrograms_length (counts : List ℕ) (oc : ℕ → ℕ → Bool) :
    (fleetPrograms counts oc).length = counts.length := by
  simp [fleetPrograms]

theorem fleetPrograms_get (counts : List ℕ) (oc : ℕ → ℕ → Bool) (i : ℕ)
    (h : i < counts.length) (h2 : i < (fleetPrograms counts oc).length) :
    (fleetPrograms counts oc).get ⟨i, h2⟩
      = machineProgram i (counts.get ⟨i, h⟩) (oc i) := by
  simp [fleetPrograms, List.get_eq_getElem, List.enum]

/-- C8: in every interleaved execution of the fleet, events of one machine
occur in its coroutine's program order, so for two chunks a < b of machine
i the whole submission interval of chunk a (its begin and end events)
precedes chunk b's interval - two chunks of the same machine never overlap
and chunk b is never submitted before chunk a's submission call has
returned; moreover every chunk's submission is bracketed by the lock
acquire before it and the lock release after it, on the failed path (oc i j
false, the engine raised into the except clause) as well as the successful
one. Sublist means ordered occurrence within the trace. -/
theorem claim_C8_lock_ordering (counts : List ℕ) (oc : ℕ → ℕ → Bool)
    (t : List Event) (ht : IsInterleaving (fleetPrograms counts oc) t)
    (i : ℕ) (hi : i < counts.length) :
    (∀ a b, a < b → b < counts.get ⟨i, hi⟩ →
      ([⟨i, .beginSub a⟩, ⟨i, .endSub a (oc i a)⟩,
        ⟨i, .beginSub b⟩, ⟨i, .endSub b (oc i b)⟩] : List Event).Sublist t)
    ∧ (∀ j, j < counts.get ⟨i, hi⟩ →
        ([⟨i, .acquire⟩, ⟨i, .beginSub j⟩, ⟨i, .endSub j (oc i j)⟩,
          ⟨i, .release⟩] : List Event).Sublist t) := by
  have h2 : i < (fleetPrograms counts oc).length := by
    rw [fleetPrograms_length]
    exact hi
  have hfil := ht.2 i h2
  have hprog : t.filter (fun e => e.machine == i)
      = machineProgram i (counts.get ⟨i, hi⟩) (oc i) := by
    rw [hfil, fleetPrograms_get counts oc i hi h2]
  have hsub : (machineProgram i (counts.get ⟨i, hi⟩) (oc i)).Sublist t := by
    rw [← hprog]
    exact List.filter_sublist t
  constructor
  · intro a b hab hb
    exact (orderedPair_sublist i _ a b (oc i) hab hb).trans hsub
  · intro j hj
    exact (chunkEvents_block_sublist i _ (oc i) j hj).trans hsub

/-- Witness for claim_C8_lock_ordering: a concrete interleaving of machine
0 (two chunks) and machine 1 (one chunk) in which the two machines' first
chunks overlap, yet machine 0's chunk 1 still starts only after its chunk 0
ended. -/
theorem claim_C8_lock_ordering_witness :
    IsInterleaving (fleetPrograms [2, 1] (fun _ _ => true))
      [⟨0, .acquire⟩, ⟨1, .acquire⟩, ⟨0, .beginSub 0⟩, ⟨1, .beginSub 0⟩,
       ⟨1, .endSub 0 true⟩, ⟨0, .endSub 0 true⟩, ⟨1, .release⟩, ⟨0, .release⟩,
       ⟨0, .acquire⟩, ⟨0, .beginSub 1⟩, ⟨0, .endSub 1 true⟩, ⟨0, .release⟩]
    ∧ ([⟨0, .beginSub 0⟩, ⟨0, .endSub 0 true⟩,
        ⟨0, .beginSub 1⟩, ⟨0, .endSub 1 true⟩] : List Event).Sublist
      [⟨0, .acquire⟩, ⟨1, .acquire⟩, ⟨0, .beginSub 0⟩, ⟨1, .beginSub 0⟩,
       ⟨1, .endSub 0 true⟩, ⟨0, .endSub 0 true⟩, ⟨1, .release⟩, ⟨0, .release⟩,
       ⟨0, .acquire⟩, ⟨0, .beginSub 1⟩, ⟨0, .endSub 1 true⟩, ⟨0, .release⟩] :=
  ⟨by decide,
    (claim_C8_lock_ordering [2, 1] (fun _ _ => true) _ (by decide) 0 (by decide)).1
      0 1 (by decide) (by decide)⟩

/-! ## Progress-message lemmas -/

/-- C9: for a machine with N tasks and chunk limit s >= 1, the progress
message before chunk index k (0-based) reports ceil(N/s) total chunks and
N - k*s tasks remaining, and when both timestamps are present the estimated
time left is the previous chunk's elapsed time multiplied by the number of
chunks remaining, ceil(N/s) - k. -/
theorem claim_C9_progress (N c s k : ℕ) (old_time new_time : Option ℚ)
    (_hs : 1 ≤ s) :
    (_info_current_dispatch N c s k old_time new_time).total_chunks
        = ⌈(N : ℚ) / (s : ℚ)⌉
    ∧ (_info_current_dispatch N c s k old_time new_time).remaining_tasks
        = (N : ℤ) - k * s
    ∧ ∀ o n', old_time = some o → new_time = some n' →
        (_info_current_dispatch N c s k old_time new_time).time_left
          = some ((n' - o) * ((⌈(N : ℚ) / (s : ℚ)⌉ : ℚ) - (k : ℚ))) := by
  have htc : iceil (N : ℤ) s = ⌈(N : ℚ) / (s : ℚ)⌉ := by
    rw [iceil_eq_ceil]
    norm_num
  refine ⟨htc, rfl, ?_⟩
  intro o n' ho hn
  subst ho
  subst hn
  show some ((n' - o) * ((iceil (N : ℤ) s : ℚ) - (k : ℚ))) = _
  rw [htc]

/-- Witness for claim_C9_progress: 7 tasks, chunk limit 3, chunk index 1,
timestamps 2 and 5. -/
theorem claim_C9_progress_witness :
    1 ≤ 3
    ∧ ((_info_current_dispatch 7 3 3 1 (some 2) (some 5)).total_chunks
        = ⌈((7 : ℕ) : ℚ) / ((3 : ℕ) : ℚ)⌉
      ∧ (_info_current_dispatch 7 3 3 1 (some 2) (some 5)).remaining_tasks
        = ((7 : ℕ) : ℤ) - 1 * 3
      ∧ ∀ o n', (some 2 : Option ℚ) = some o → (some 5 : Option ℚ) = some n' →
          (_info_current_dispatch 7 3 3 1 (some 2) (some 5)).time_left
            = some ((n' - o) * ((⌈((7 : ℕ) : ℚ) / ((3 : ℕ) : ℚ)⌉ : ℚ) - ((1 : ℕ) : ℚ)))) :=
  ⟨by decide, claim_C9_progress 7 3 3 1 (some 2) (some 5) (by decide)⟩

/-! ## unpack_indices lemmas -/

theorem splitOnChar_not_mem (sep : Char) (l : List Char) (h : sep ∉ l) :
    splitOnChar sep l = [l] := by
  induction l with
  | nil => rfl
  | cons c cs ih =>
    have hc : ¬c = sep := fun e => h (by simp [e])
    simp only [splitOnChar]
    rw [if_neg hc, ih (fun hm => h (by simp [hm]))]

theorem splitOnChar_append (sep : Char) (a b : List Char) (ha : sep ∉ a) :
    splitOnChar sep (a ++ sep :: b) = a :: splitOnChar sep b := by
  induction a with
  | nil => simp [splitOnChar]
  | cons c cs ih =>
    have hc : ¬c = sep := fun e => ha (by simp [e])
    simp only [List.cons_append, splitOnChar, List.append_eq]
    rw [if_neg hc, ih (fun hm => ha (by simp [hm]))]

theorem lt_pyRangeLen_iff (start stop step : ℤ) (i : ℕ) (hstep : 0 < step) :
    i < pyRangeLen start stop step ↔ start + step * (i : ℤ) < stop := by
  unfold pyRangeLen
  rw [if_pos hstep]
  have hS1 : 1 ≤ step.toNat := by omega
  have hnat : i < ((stop - start).toNat + (step.toNat - 1)) / step.toNat
      ↔ step.toNat * i < (stop - start).toNat := by
    rw [Nat.lt_iff_add_one_le, Nat.le_div_iff_mul_le (by omega)]
    have he : (i + 1) * step.toNat = step.toNat * i + step.toNat := by ring
    rw [he]
    omega
  rw [hnat]
  have hcast : ((step.toNat * i : ℕ) : ℤ) = step * (i : ℤ) := by
    push_cast [Int.toNat_of_nonneg (by omega : (0 : ℤ) ≤ step)]
    ring
  omega

/-- C10: unpack_indices maps each int element to itself, drops elements of
any other (non-int, non-str) type, and expands a string of the form
start-end (characters of a decimal literal, a dash, a decimal literal)
or start-end:step to Python range(start, end + 1, step) with default step
1, preserving input order; for a positive step that range consists exactly
of the integers start + step*i (i >= 0) that are at most end, in
increasing order of i. -/
theorem claim_C10_unpack_indices :
    (∀ (n : ℤ) (rest : List PyVal),
      unpack_indices (.int n :: rest)
        = (unpack_indices rest).map (fun l => n :: l))
    ∧ (∀ rest : List PyVal,
        unpack_indices (.other :: rest) = unpack_indices rest)
    ∧ (∀ (a b : List Char) (start stop : ℤ) (rest : List PyVal),
        ':' ∉ a → ':' ∉ b → '-' ∉ a → '-' ∉ b →
        int_of_chars a = some start → int_of_chars b = some stop →
        unpack_indices (.str (a ++ '-' :: b) :: rest)
          = (unpack_indices rest).map
              (fun l => (List.range (pyRangeLen start (stop + 1) 1)).map
                  (fun i : ℕ => start + 1 * (i : ℤ)) ++ l))
    ∧ (∀ (a b c : List Char) (start stop step : ℤ) (rest : List PyVal),
        ':' ∉ a → ':' ∉ b → ':' ∉ c → '-' ∉ a → '-' ∉ b →
        int_of_chars a = some start → int_of_chars b = some stop →
        int_of_chars c = some step → step ≠ 0 →
        unpack_indices (.str ((a ++ '-' :: b) ++ ':' :: c) :: rest)
          = (unpack_indices rest).map
              (fun l => (List.range (pyRangeLen start (stop + 1) step)).map
                  (fun i : ℕ => start + step * (i : ℤ)) ++ l))
    ∧ (∀ (start stop step x : ℤ), 0 < step →
        ((x ∈ (List.range (pyRangeLen start (stop + 1) step)).map
            (fun i : ℕ => start + step * (i : ℤ)))
          ↔ ∃ i : ℕ, x = start + step * (i : ℤ) ∧ x ≤ stop)) := by
  refine ⟨fun n rest => rfl, fun rest => rfl, ?_, ?_, ?_⟩
  · intro a b start stop rest hca hcb hda hdb hpa hpb
    have hsplit1 : splitOnChar ':' (a ++ '-' :: b) = [a ++ '-' :: b] :=
      splitOnChar_not_mem ':' _ (by simp [hca, hcb])
    have hsplit2 : splitOnChar '-' (a ++ '-' :: b) = [a, b] := by
      rw [splitOnChar_append '-' a b hda, splitOnChar_not_mem '-' b hdb]
    simp only [unpack_indices, hsplit1, List.headD_cons, hsplit2, hpa, hpb,
      pyRange, if_neg (one_ne_zero : (1 : ℤ) ≠ 0)]
  · intro a b c start stop step rest hca hcb hcc hda hdb hpa hpb hpc hstep
    have hsplit1 : splitOnChar ':' ((a ++ '-' :: b) ++ ':' :: c)
        = [a ++ '-' :: b, c] := by
      rw [splitOnChar_append ':' _ c (by simp [hca, hcb]),
        splitOnChar_not_mem ':' c hcc]
    have hsplit2 : splitOnChar '-' (a ++ '-' :: b) = [a, b] := by
      rw [splitOnChar_append '-' a b hda, splitOnChar_not_mem '-' b hdb]
    simp only [unpack_indices, hsplit1, List.headD_cons, hsplit2, hpa, hpb,
      hpc, pyRange, if_neg hstep]
  · intro start stop step x hstep
    constructor
    · intro hx
      rcases List.mem_map.mp hx with ⟨i, hi, hxe⟩
      rw [List.mem_range] at hi
      refine ⟨i, hxe.symm, ?_⟩
      have := (lt_pyRangeLen_iff start (stop + 1) step i hstep).mp hi
      omega
    · rintro ⟨i, hxe, hle⟩
      apply List.mem_map.mpr
      refine ⟨i, ?_, hxe.symm⟩
      rw [List.mem_range]
      apply (lt_pyRangeLen_iff start (stop + 1) step i hstep).mpr
      omega

/-- Witness for claim_C10_unpack_indices: the string "3-5:2" (as its
character list) expands to range(3, 6, 2). -/
theorem claim_C10_unpack_indices_witness :
    (':' ∉ ['3'] ∧ ':' ∉ ['5'] ∧ ':' ∉ ['2'] ∧ '-' ∉ ['3'] ∧ '-' ∉ ['5']
      ∧ int_of_chars ['3'] = some 3 ∧ int_of_chars ['5'] = some 5
      ∧ int_of_chars ['2'] = some 2 ∧ (2 : ℤ) ≠ 0)
    ∧ unpack_indices (.str ((['3'] ++ '-' :: ['5']) ++ ':' :: ['2']) :: [])
        = (unpack_indices []).map
            (fun l => (List.range (pyRangeLen 3 (5 + 1) 2)).map
                (fun i : ℕ => 3 + 2 * (i : ℤ)) ++ l) :=
  ⟨⟨by decide, by decide, by decide, by decide, by decide, by decide, by decide,
      by decide, by decide⟩,
    claim_C10_unpack_indices.2.2.2.1 ['3'] ['5'] ['2'] 3 5 2 []
      (by decide) (by decide) (by decide) (by decide) (by decide)
      (by decide) (by decide) (by decide) (by decide)⟩

/-- Sanity check mirroring src/test/test_stuff.py: the repository's own
test input [1, 2, "3-5:2", "6-10"] expands to [1, 2, 3, 5, 6, 7, 8, 9, 10]. -/
theorem unpack_indices_matches_repo_test :
    unpack_indices
        [.int 1, .int 2, .str ['3', '-', '5', ':', '2'],
          .str ['6', '-', '1', '0']]
      = some [1, 2, 3, 5, 6, 7, 8, 9, 10] := by
  decide

end Thutil
